import Mathlib

/-!
Verification of the CloudWatch Logs batching-and-delivery pipeline
("pusher" subsystem) of this repository.

The embedding follows the Go sources:
  * `internal/aws/cwlogs/pusher.go` — events, batches, `logPusher`,
    `multiStreamPusher`, `logStreamManager`;
  * `exporter/awsemfexporter/bounded_pusher_map.go` — `BoundedPusherMap`.

Modelling conventions:
  * Go `string` message payloads are byte lists (`List Nat`), since the Go
    code measures and slices messages by byte length.
  * Timestamps are `Int`: milliseconds in `InputLogEvent.Timestamp`,
    nanoseconds for the wall clock `nowNs` that `time.Now()` provides.
  * Go maps are association lists (`List (String × α)`) with
    insert-or-replace (`mapInsert`) and lookup (`mapLookup`); iteration
    effects used by the code (delete-while-ranging) are order independent
    and are modelled by `List.filter`.
  * Fallible calls return `Option String` (`none` = Go `nil` error).
  * The network `Client` is a collaborator, modelled as a structure of
    function fields.
-/

namespace CWLogs

/-! ## Constants (pusher.go lines 19-36) -/

def defaultMaxEventPayloadBytes : Nat := 1024 * 256

def maxRequestEventCount : Nat := 10000

def perEventHeaderBytes : Nat := 26

def maxRequestPayloadBytes : Nat := 1024 * 1024 * 1

/-- The bytes of the Go string constant `"[Truncated...]"`. -/
def truncatedSuffix : List Nat :=
  [91, 84, 114, 117, 110, 99, 97, 116, 101, 100, 46, 46, 46, 93]

/-- Package-level `var maxEventPayloadBytes = defaultMaxEventPayloadBytes`. -/
def maxEventPayloadBytes : Nat := defaultMaxEventPayloadBytes

/-- `14 * 24 * time.Hour` in nanoseconds. -/
def eventTimestampLimitInPast : Int := 14 * 24 * 3600 * 1000000000

/-- `-2 * time.Hour` in nanoseconds. -/
def evenTimestampLimitInFuture : Int := -2 * 3600 * 1000000000

/-! ## Association-list model of Go maps -/

/-- Lookup in a Go map modelled as an association list. -/
def mapLookup (k : String) : List (String × α) → Option α
  | [] => none
  | (k', v) :: rest => if k' = k then some v else mapLookup k rest

/-- `m[k] = v` on a Go map: replace in place or append a fresh binding. -/
def mapInsert (k : String) (v : α) : List (String × α) → List (String × α)
  | [] => [(k, v)]
  | (k', v') :: rest => if k' = k then (k, v) :: rest else (k', v') :: mapInsert k v rest

/-! ## Data model (pusher.go lines 38-86, 127-136) -/

/-- `cloudwatchlogs.Entity`: two optional string-keyed attribute maps. -/
structure Entity where
  attributes : Option (List (String × String))
  keyAttributes : Option (List (String × String))
deriving DecidableEq

/-- `cloudwatchlogs.InputLogEvent`: a timestamp in milliseconds and a
message, kept as its byte sequence. -/
structure InputLogEvent where
  timestamp : Int
  message : List Nat
deriving DecidableEq

/-- `StreamKey` uniquely identifies a cloudwatch logs stream. -/
structure StreamKey where
  logGroupName : String
  logStreamName : String
  entity : Option Entity
deriving DecidableEq

/-- Modelled from the spec: `mapToString` (referenced by
`StreamKey.Hash` in pusher.go but defined in a repository file that is
not under `src/`) renders an entity attribute map as a deterministic
string composition of its key/value pairs. -/
def mapToString (m : List (String × String)) : String :=
  m.foldl (fun acc kv => acc ++ kv.1 ++ "=" ++ kv.2 ++ ",") ""

/-- `StreamKey.Hash` (pusher.go lines 66-86): the string
`group|stream|attributes|keyAttributes`. -/
def StreamKey.Hash (sk : StreamKey) : String :=
  let attributes :=
    match sk.entity with
    | some e => match e.attributes with
      | some a => mapToString a
      | none => ""
    | none => ""
  let keyAttributes :=
    match sk.entity with
    | some e => match e.keyAttributes with
      | some a => mapToString a
      | none => ""
    | none => ""
  sk.logGroupName ++ "|" ++ sk.logStreamName ++ "|" ++ attributes ++ "|" ++ keyAttributes

/-- `Event` (pusher.go lines 38-45): a log event, the time it was
generated (already converted to milliseconds, as
`GeneratedTime.UnixNano()/1e6` does), and its destination stream key. -/
structure Event where
  inputLogEvent : InputLogEvent
  generatedTimeMs : Int
  streamKey : StreamKey
deriving DecidableEq

/-- `NewEvent` (pusher.go lines 49-56). -/
def NewEvent (timestampMs : Int) (message : List Nat) : Event :=
  { inputLogEvent := { timestamp := timestampMs, message := message }
    generatedTimeMs := 0
    streamKey := { logGroupName := "", logStreamName := "", entity := none } }

/-- `Event.eventPayloadBytes` (pusher.go lines 123-125). -/
def Event.eventPayloadBytes (e : Event) : Nat :=
  e.inputLogEvent.message.length + perEventHeaderBytes

theorem Event.eventPayloadBytes_def (e : Event) :
    e.eventPayloadBytes = e.inputLogEvent.message.length + perEventHeaderBytes := rfl

/-- `Event.Validate` (pusher.go lines 88-120), with the wall clock
`nowNs` (`time.Now()`, nanoseconds) passed explicitly.  Returns the Go
error and the (possibly mutated) event; the mutations — truncation of an
oversized message and defaulting of a zero timestamp — persist even when
an error is returned, exactly as the in-place mutation does in Go.
`currentTime.Sub(utcTime)` is a nanosecond duration, so the millisecond
timestamp is scaled by 1e6 before the window comparison. -/
def Event.Validate (nowNs : Int) (e : Event) : Option String × Event :=
  let e :=
    if e.eventPayloadBytes > maxEventPayloadBytes then
      { e with inputLogEvent := { e.inputLogEvent with
          message := e.inputLogEvent.message.take
              (maxEventPayloadBytes - perEventHeaderBytes - truncatedSuffix.length)
            ++ truncatedSuffix } }
    else e
  let e :=
    if e.inputLogEvent.timestamp = 0 then
      { e with inputLogEvent := { e.inputLogEvent with timestamp := e.generatedTimeMs } }
    else e
  if e.inputLogEvent.message.length = 0 then
    (some "empty log event message", e)
  else
    let duration : Int := nowNs - e.inputLogEvent.timestamp * 1000000
    if duration > eventTimestampLimitInPast ∨ duration < evenTimestampLimitInFuture then
      (some "the log entry timestamp is older than 14 days or more than 2 hours in the future", e)
    else
      (none, e)

/-- `cloudwatchlogs.PutLogEventsInput` as used by the pusher. -/
structure PutLogEventsInput where
  logGroupName : String
  logStreamName : String
  logEvents : List InputLogEvent
  entity : Option Entity
deriving DecidableEq

/-- `eventBatch` (pusher.go lines 127-136).  `eventsCap` models the Go
slice capacity of `LogEvents`, which `exceedsLimit` compares against. -/
structure eventBatch where
  putLogEventsInput : PutLogEventsInput
  eventsCap : Nat
  byteTotal : Nat
  minTimestampMs : Int
  maxTimestampMs : Int
deriving DecidableEq

/-- `newEventBatch` (pusher.go lines 139-154): an empty batch whose
`LogEvents` slice has capacity `maxRequestEventCount`.  The `Info`
logging the source performs here (including `key.Entity.GoString()`,
whose receiver lives in repository SDK code that is not under `src/`) is
modelled from the spec as non-functional observability with no effect. -/
def newEventBatch (key : StreamKey) : eventBatch :=
  { putLogEventsInput :=
      { logGroupName := key.logGroupName
        logStreamName := key.logStreamName
        logEvents := []
        entity := key.entity }
    eventsCap := maxRequestEventCount
    byteTotal := 0
    minTimestampMs := 0
    maxTimestampMs := 0 }

/-- `eventBatch.exceedsLimit` (pusher.go lines 156-159).  Note: the
source compares the running byte total against `maxEventPayloadBytes`
(the single-event limit), not `maxRequestPayloadBytes`. -/
def eventBatch.exceedsLimit (batch : eventBatch) (nextByteTotal : Nat) : Bool :=
  batch.putLogEventsInput.logEvents.length == batch.eventsCap ||
    decide (batch.byteTotal + nextByteTotal > maxEventPayloadBytes)

/-- `eventBatch.isActive` (pusher.go lines 164-176). -/
def eventBatch.isActive (batch : eventBatch) (targetTimestampMs : Int) : Bool :=
  if batch.minTimestampMs = 0 ∨ batch.maxTimestampMs = 0 then true
  else if targetTimestampMs - batch.minTimestampMs > 24 * 3600 * 1000 then false
  else if batch.maxTimestampMs - targetTimestampMs > 24 * 3600 * 1000 then false
  else true

/-- `eventBatch.append` (pusher.go lines 178-187). -/
def eventBatch.append (batch : eventBatch) (event : Event) : eventBatch :=
  let b := { batch with
    putLogEventsInput := { batch.putLogEventsInput with
      logEvents := batch.putLogEventsInput.logEvents ++ [event.inputLogEvent] }
    byteTotal := batch.byteTotal + event.eventPayloadBytes }
  let b :=
    if b.minTimestampMs = 0 ∨ b.minTimestampMs > event.inputLogEvent.timestamp then
      { b with minTimestampMs := event.inputLogEvent.timestamp }
    else b
  if b.maxTimestampMs = 0 ∨ b.maxTimestampMs < event.inputLogEvent.timestamp then
    { b with maxTimestampMs := event.inputLogEvent.timestamp }
  else b

/-- The ordering `ByTimestamp.Less` sorts by (pusher.go lines 195-207),
in its reflexive closure: `sort.Stable` with `Less i j ↔ ts i < ts j`
produces the unique permutation that is both non-decreasing in the
timestamp and stable, which is exactly insertion sort under `≤`. -/
def ByTimestamp (a b : InputLogEvent) : Prop := a.timestamp ≤ b.timestamp

instance : DecidableRel ByTimestamp := fun a b => Int.decLe a.timestamp b.timestamp

/-- `eventBatch.sortLogEvents` (pusher.go lines 190-193):
`sort.Stable(ByTimestamp(...))`, modelled as the stable
`List.insertionSort` under `ByTimestamp`. -/
def eventBatch.sortLogEvents (batch : eventBatch) : eventBatch :=
  { batch with putLogEventsInput := { batch.putLogEventsInput with
      logEvents := List.insertionSort ByTimestamp batch.putLogEventsInput.logEvents } }

/-! ## The network client collaborator (cwlog client interface) -/

/-- The `Client` collaborator: `PutLogEvents(input, retryCnt)` and
`CreateStream(group, stream)`, each returning a Go error. -/
structure Client where
  putLogEvents : PutLogEventsInput → Nat → Option String
  createStream : String → String → Option String

/-- Modelled from the spec: the default retry budget of the cwlog
client (its defining file is not under `src/`); the spec treats retry
mechanics as a black box inside `Client`, so the exact value carries no
weight in any claim. -/
def defaultRetryCount : Nat := 1

/-! ## logPusher (pusher.go lines 216-355) -/

/-- `logPusher` (pusher.go lines 216-229).  The `entity` field is never
assigned anywhere in the source, so it keeps its Go zero value `nil`. -/
structure logPusher where
  logGroupName : String
  logStreamName : String
  entity : Option Entity
  logEventBatch : eventBatch
  retryCnt : Nat
deriving DecidableEq

/-- `newLogPusher` (pusher.go lines 246-257). -/
def newLogPusher (streamKey : StreamKey) : logPusher :=
  { logGroupName := streamKey.logGroupName
    logStreamName := streamKey.logStreamName
    entity := none
    logEventBatch := newEventBatch streamKey
    retryCnt := 0 }

/-- `NewPusher` (pusher.go lines 232-243). -/
def NewPusher (streamKey : StreamKey) (retryCnt : Nat) : logPusher :=
  let p := newLogPusher streamKey
  let p := { p with retryCnt := defaultRetryCount }
  if retryCnt > 0 then { p with retryCnt := retryCnt } else p

/-- `logPusher.pushEventBatch` (pusher.go lines 290-315): sort the
batch, hand the sorted `PutLogEventsInput` to the client.  Returns the
client error together with the transmitted input (the observable
effect). -/
def logPusher.pushEventBatch (client : Client) (p : logPusher) (batch : eventBatch) :
    Option String × PutLogEventsInput :=
  let sorted := batch.sortLogEvents
  (client.putLogEvents sorted.putLogEventsInput p.retryCnt, sorted.putLogEventsInput)

/-- `logPusher.addLogEvent` (pusher.go lines 317-336): returns the
rolled-over previous batch (if any) and the updated pusher. -/
def logPusher.addLogEvent (p : logPusher) (logEvent : Option Event) :
    Option eventBatch × logPusher :=
  match logEvent with
  | none => (none, p)
  | some ev =>
    let currentBatch := p.logEventBatch
    if currentBatch.exceedsLimit ev.eventPayloadBytes ||
        !(currentBatch.isActive ev.inputLogEvent.timestamp) then
      let key : StreamKey :=
        { logGroupName := p.logGroupName, logStreamName := p.logStreamName,
          entity := p.entity }
      (some currentBatch, { p with logEventBatch := (newEventBatch key).append ev })
    else
      (none, { p with logEventBatch := currentBatch.append ev })

/-- Result of one `logPusher.AddLogEntry` call: the returned error, the
pusher state afterwards, and the input transmitted by a triggered
rollover, when one happened. -/
structure AddResult where
  err : Option String
  pusher : logPusher
  transmitted : Option PutLogEventsInput
deriving DecidableEq

/-- `logPusher.AddLogEntry` (pusher.go lines 265-278). -/
def logPusher.AddLogEntry (client : Client) (nowNs : Int) (p : logPusher)
    (logEvent : Option Event) : AddResult :=
  match logEvent with
  | none => { err := none, pusher := p, transmitted := none }
  | some ev =>
    let v := Event.Validate nowNs ev
    match v.1 with
    | some e => { err := some e, pusher := p, transmitted := none }
    | none =>
      let r := p.addLogEvent (some v.2)
      match r.1 with
      | none => { err := none, pusher := r.2, transmitted := none }
      | some prevBatch =>
        let push := logPusher.pushEventBatch client r.2 prevBatch
        { err := push.1, pusher := r.2, transmitted := some push.2 }

/-- `logPusher.renewEventBatch` (pusher.go lines 338-355). -/
def logPusher.renewEventBatch (p : logPusher) : Option eventBatch × logPusher :=
  let key : StreamKey :=
    { logGroupName := p.logGroupName, logStreamName := p.logStreamName,
      entity := p.entity }
  if p.logEventBatch.putLogEventsInput.logEvents.length > 0 then
    (some p.logEventBatch, { p with logEventBatch := newEventBatch key })
  else (none, p)

/-- How one `ForceFlush` call ends: either the goroutine panics, or the
call returns an error value (possibly `none`), having transmitted the
given input if any. -/
inductive FlushOutcome where
  | panicked : FlushOutcome
  | returned (err : Option String) (transmitted : Option PutLogEventsInput) : FlushOutcome
deriving DecidableEq

/-- `logPusher.ForceFlush` (pusher.go lines 280-288).  Line 283 reads
`prevBatch.putLogEventsInput` unconditionally while building a log
message; when `renewEventBatch` returned `nil` (empty current batch)
that is a nil-pointer dereference, i.e. a runtime panic, reached before
the `prevBatch != nil` check on line 284. -/
def logPusher.ForceFlush (client : Client) (p : logPusher) : FlushOutcome × logPusher :=
  let r := p.renewEventBatch
  match r.1 with
  | none => (FlushOutcome.panicked, r.2)
  | some prevBatch =>
    let push := logPusher.pushEventBatch client r.2 prevBatch
    (FlushOutcome.returned push.1 (some push.2), r.2)

/-! ## logStreamManager (pusher.go lines 440-467) -/

/-- `logStreamManager` (pusher.go lines 440-444): the memoized set of
stream hashes.  The mutex and the double-checked locking of the source
collapse in this sequential model. -/
structure logStreamManager where
  streams : List String
deriving DecidableEq

/-- What one `InitStream` call did: its returned error, the manager
state afterwards, and whether `Client.CreateStream` was invoked. -/
structure InitOutcome where
  err : Option String
  manager : logStreamManager
  calledCreateStream : Bool
deriving DecidableEq

/-- `logStreamManager.InitStream` (pusher.go lines 453-467).  On a
miss, the stream is marked as existing even when `CreateStream`
returned an error. -/
def logStreamManager.InitStream (client : Client) (lsm : logStreamManager)
    (streamKey : StreamKey) : InitOutcome :=
  if streamKey.Hash ∈ lsm.streams then
    { err := none, manager := lsm, calledCreateStream := false }
  else
    { err := client.createStream streamKey.logGroupName streamKey.logStreamName
      manager := { streams := streamKey.Hash :: lsm.streams }
      calledCreateStream := true }

/-- Run a sequence of `InitStream` calls; collect the per-call errors,
the final manager state, and the hashes for which `CreateStream` was
invoked, in call order. -/
def runInitStreams (client : Client) (lsm : logStreamManager) :
    List StreamKey → List (Option String) × logStreamManager × List String
  | [] => ([], lsm, [])
  | k :: ks =>
    let r := lsm.InitStream client k
    let rest := runInitStreams client r.manager ks
    (r.err :: rest.1, rest.2.1,
      (if r.calledCreateStream then [k.Hash] else []) ++ rest.2.2)

/-! ## multiStreamPusher (pusher.go lines 357-405) -/

/-- `multiStreamPusher` (pusher.go lines 357-363): its own plain
`map[string]Pusher`, plus the shared stream manager. -/
structure multiStreamPusher where
  logStreamManager : logStreamManager
  pusherMap : List (String × logPusher)
deriving DecidableEq

/-- `newMultiStreamPusher` (pusher.go lines 365-372). -/
def newMultiStreamPusher : multiStreamPusher :=
  { logStreamManager := { streams := [] }, pusherMap := [] }

/-- Result of one `multiStreamPusher.AddLogEntry` call. -/
structure MultiAddResult where
  err : Option String
  state : multiStreamPusher
deriving DecidableEq

/-- `multiStreamPusher.AddLogEntry` (pusher.go lines 374-388): ensure
the stream exists, then fetch or create the per-stream `Pusher` in the
plain `pusherMap` keyed by `StreamKey.Hash`, and delegate.  The Go map
stores a pointer, so the pusher state mutated by the delegated call is
what the map holds afterwards; `mapInsert` reflects that. -/
def multiStreamPusher.AddLogEntry (client : Client) (nowNs : Int)
    (m : multiStreamPusher) (event : Event) : MultiAddResult :=
  let r := m.logStreamManager.InitStream client event.streamKey
  match r.err with
  | some e => { err := some e, state := { m with logStreamManager := r.manager } }
  | none =>
    let m := { m with logStreamManager := r.manager }
    let pusher :=
      match mapLookup event.streamKey.Hash m.pusherMap with
      | some p => p
      | none => NewPusher event.streamKey 1
    let res := pusher.AddLogEntry client nowNs (some event)
    { err := res.err
      state := { m with pusherMap := mapInsert event.streamKey.Hash res.pusher m.pusherMap } }

/-- Run a sequence of `multiStreamPusher.AddLogEntry` calls, collecting
the per-call errors. -/
def runMultiAdds (client : Client) (nowNs : Int) (m : multiStreamPusher) :
    List Event → List (Option String) × multiStreamPusher
  | [] => ([], m)
  | e :: es =>
    let r := m.AddLogEntry client nowNs e
    let rest := runMultiAdds client nowNs r.state es
    (r.err :: rest.1, rest.2)

/-! ## BoundedPusherMap (exporter/awsemfexporter/bounded_pusher_map.go) -/

/-- `pusherMapLimit` (bounded_pusher_map.go line 14). -/
def pusherMapLimit : Nat := 1000

/-- `time.Hour` in nanoseconds. -/
def hourNs : Int := 3600 * 1000000000

/-- `BoundedPusherMap` (bounded_pusher_map.go lines 17-21), generic in
the cached pusher type (the Go field holds abstract `cwlogs.Pusher`
interface values). -/
structure BoundedPusherMap (π : Type) where
  pusherMap : List (String × π)
  limit : Nat
  stalePusherTracker : List (String × Int)

/-- A `BoundedPusherMap` with the given capacity. -/
def mkBoundedPusherMap (limit : Nat) : BoundedPusherMap π :=
  { pusherMap := [], limit := limit, stalePusherTracker := [] }

/-- `NewBoundedPusherMap` (bounded_pusher_map.go lines 23-29). -/
def NewBoundedPusherMap : BoundedPusherMap π := mkBoundedPusherMap pusherMapLimit

/-- Whether the tracker marks `k` as idle for more than one hour at
time `now` (the eviction condition of bounded_pusher_map.go line 55). -/
def BoundedPusherMap.isStaleAt (bpm : BoundedPusherMap π) (now : Int) (k : String) : Bool :=
  match mapLookup k bpm.stalePusherTracker with
  | some lastUsed => decide (now - lastUsed > hourNs)
  | none => false

/-- `BoundedPusherMap.EvictStalePushers` (bounded_pusher_map.go lines
49-66).  The delete-while-ranging loop removes exactly the tracked
entries idle for more than one hour from both maps; its iteration order
does not matter, so it is a filter. -/
def BoundedPusherMap.EvictStalePushers (now : Int) (bpm : BoundedPusherMap π) :
    Option String × BoundedPusherMap π :=
  if bpm.pusherMap.length < bpm.limit then (none, bpm)
  else
    let bpm' : BoundedPusherMap π :=
      { bpm with
        pusherMap := bpm.pusherMap.filter (fun p => !(bpm.isStaleAt now p.1))
        stalePusherTracker :=
          bpm.stalePusherTracker.filter (fun p => !(decide (now - p.2 > hourNs))) }
    if bpm'.pusherMap.length ≥ bpm'.limit then
      (some "too many emf pushers being created. Dropping the request", bpm')
    else (none, bpm')

/-- `BoundedPusherMap.Add` (bounded_pusher_map.go lines 31-39): on an
eviction error the insertion is skipped (the error is logged); the
state keeps whatever eviction removed. -/
def BoundedPusherMap.Add (now : Int) (k : String) (v : π) (bpm : BoundedPusherMap π) :
    Option String × BoundedPusherMap π :=
  let r := bpm.EvictStalePushers now
  match r.1 with
  | some e => (some e, r.2)
  | none =>
    (none, { r.2 with
      pusherMap := mapInsert k v r.2.pusherMap
      stalePusherTracker := mapInsert k now r.2.stalePusherTracker })

/-- `BoundedPusherMap.Get` (bounded_pusher_map.go lines 41-47): a hit
refreshes the idle timer. -/
def BoundedPusherMap.Get (now : Int) (k : String) (bpm : BoundedPusherMap π) :
    Option π × BoundedPusherMap π :=
  match mapLookup k bpm.pusherMap with
  | some v => (some v, { bpm with stalePusherTracker := mapInsert k now bpm.stalePusherTracker })
  | none => (none, bpm)

/-- One operation on a `BoundedPusherMap`, with the wall-clock time at
which it runs. -/
inductive BPMOp (π : Type) where
  | add (now : Int) (k : String) (v : π)
  | get (now : Int) (k : String)
  | evict (now : Int)

/-- State effect of one operation. -/
def BPMOp.apply : BPMOp π → BoundedPusherMap π → BoundedPusherMap π
  | .add now k v, bpm => (bpm.Add now k v).2
  | .get now k, bpm => (bpm.Get now k).2
  | .evict now, bpm => (bpm.EvictStalePushers now).2

/-- Run a sequence of operations. -/
def runBPMOps (ops : List (BPMOp π)) (bpm : BoundedPusherMap π) : BoundedPusherMap π :=
  ops.foldl (fun st op => op.apply st) bpm

/-- Fold `Add` over a list of keys, all at the same instant `now`,
collecting the per-call errors. -/
def addAllFresh (now : Int) (mkv : String → π) (keys : List String)
    (bpm : BoundedPusherMap π) : List (Option String) × BoundedPusherMap π :=
  match keys with
  | [] => ([], bpm)
  | k :: ks =>
    let r := bpm.Add now k (mkv k)
    let rest := addAllFresh now mkv ks r.2
    (r.1 :: rest.1, rest.2)

/-! ## Concrete fixtures used by theorems and witnesses -/

/-- A client whose network calls always succeed. -/
def trivClient : Client :=
  { putLogEvents := fun _ _ => none, createStream := fun _ _ => none }

/-- Stream "A". -/
def keyA : StreamKey := { logGroupName := "G", logStreamName := "A", entity := none }

/-- A batch of 9709 one-byte events: 9709 · 27 = 262143 payload bytes. -/
def batch262143 : eventBatch :=
  { putLogEventsInput :=
      { logGroupName := "G", logStreamName := "A"
        logEvents := List.replicate 9709 { timestamp := 1, message := [97] }
        entity := none }
    eventsCap := 10000
    byteTotal := 262143
    minTimestampMs := 1
    maxTimestampMs := 1 }

/-! ## C1 -/

/-- C1: the code contradicts the claimed batch byte limit.  A batch of
9709 events holding 262143 payload bytes is far below both spec limits
(9709 < 10000 events and 262143 + 27 ≤ 1048576 bytes), yet
`exceedsLimit 27` already answers `true`, because the source compares
the running total against `maxEventPayloadBytes` = 262144 (the
single-event limit) instead of `maxRequestPayloadBytes` = 1048576
documented in its own comment block. -/
theorem exceedsLimit_trips_below_request_limit :
    batch262143.exceedsLimit 27 = true ∧
    batch262143.putLogEventsInput.logEvents.length < maxRequestEventCount ∧
    batch262143.byteTotal + 27 ≤ maxRequestPayloadBytes := by
  have h1 : batch262143.putLogEventsInput.logEvents.length = 9709 :=
    List.length_replicate 9709 _
  refine ⟨?_, ?_, by decide⟩
  · simp only [eventBatch.exceedsLimit, h1]
    decide
  · rw [h1]
    decide

/-! ## C3 -/

/-- C3: with an empty current batch, `ForceFlush` does not return `nil`
as the spec states: `renewEventBatch` yields a nil previous batch and
the debug log line at pusher.go:283 dereferences it before the nil
check on line 284, so the call panics. -/
theorem forceFlush_empty_batch_panics (client : Client) (p : logPusher)
    (h : p.logEventBatch.putLogEventsInput.logEvents = []) :
    (p.ForceFlush client).1 = FlushOutcome.panicked ∧ (p.ForceFlush client).2 = p := by
  unfold logPusher.ForceFlush logPusher.renewEventBatch
  simp [h]

/-- Witness for C3: a freshly created pusher has an empty batch and its
`ForceFlush` panics. -/
theorem forceFlush_empty_batch_panics_witness :
    (newLogPusher keyA).logEventBatch.putLogEventsInput.logEvents = [] ∧
    ((newLogPusher keyA).ForceFlush trivClient).1 = FlushOutcome.panicked := by
  exact ⟨rfl, (forceFlush_empty_batch_panics trivClient (newLogPusher keyA) rfl).1⟩

/-! ## C5 -/

/-- The message left in place by `Validate`: truncated exactly when the
payload-plus-header size exceeds the single-event limit. -/
theorem validate_message_eq (nowNs : Int) (e : Event) :
    (Event.Validate nowNs e).2.inputLogEvent.message =
      if e.eventPayloadBytes > maxEventPayloadBytes then
        e.inputLogEvent.message.take
            (maxEventPayloadBytes - perEventHeaderBytes - truncatedSuffix.length)
          ++ truncatedSuffix
      else e.inputLogEvent.message := by
  unfold Event.Validate
  by_cases hA : e.eventPayloadBytes > maxEventPayloadBytes
  · simp only [if_pos hA]
    split_ifs <;> rfl
  · simp only [if_neg hA]
    split_ifs <;> rfl

/-- C5: an event whose payload plus the 26-byte header exceeds 262144
bytes is deterministically truncated by `Validate`: the resulting
message is the first `maxPayload − header − marker` bytes of the
original followed by the `"[Truncated...]"` marker, its
payload-plus-header size is exactly the limit, and it ends with the
marker. -/
theorem validate_truncates_oversized (nowNs : Int) (e : Event)
    (h : e.eventPayloadBytes > maxEventPayloadBytes) :
    (Event.Validate nowNs e).2.inputLogEvent.message =
      e.inputLogEvent.message.take
          (maxEventPayloadBytes - perEventHeaderBytes - truncatedSuffix.length)
        ++ truncatedSuffix ∧
    (Event.Validate nowNs e).2.inputLogEvent.message.length + perEventHeaderBytes
      ≤ maxEventPayloadBytes ∧
    truncatedSuffix.IsSuffix (Event.Validate nowNs e).2.inputLogEvent.message := by
  have hmsg := validate_message_eq nowNs e
  rw [if_pos h] at hmsg
  refine ⟨hmsg, ?_, ?_⟩
  · rw [hmsg]
    unfold Event.eventPayloadBytes at h
    have hlen : maxEventPayloadBytes - perEventHeaderBytes - truncatedSuffix.length
        ≤ e.inputLogEvent.message.length := by
      simp only [maxEventPayloadBytes, defaultMaxEventPayloadBytes, perEventHeaderBytes,
        truncatedSuffix, List.length_cons, List.length_nil] at h ⊢
      omega
    simp only [List.length_append, List.length_take, Nat.min_eq_left hlen]
    simp only [maxEventPayloadBytes, defaultMaxEventPayloadBytes, perEventHeaderBytes,
      truncatedSuffix, List.length_cons, List.length_nil] at h ⊢
    omega
  · rw [hmsg]
    exact List.suffix_append _ _

/-- Witness event for C5: a 262119-byte message. -/
def oversizedEvent : Event :=
  { inputLogEvent := { timestamp := 1, message := List.replicate 262119 97 }
    generatedTimeMs := 0
    streamKey := keyA }

/-- Witness for C5 at the 262119-byte message. -/
theorem validate_truncates_oversized_witness :
    (oversizedEvent.eventPayloadBytes > maxEventPayloadBytes) ∧
    (Event.Validate 0 oversizedEvent).2.inputLogEvent.message =
      oversizedEvent.inputLogEvent.message.take
          (maxEventPayloadBytes - perEventHeaderBytes - truncatedSuffix.length)
        ++ truncatedSuffix ∧
    (Event.Validate 0 oversizedEvent).2.inputLogEvent.message.length + perEventHeaderBytes
      ≤ maxEventPayloadBytes := by
  have hlen : oversizedEvent.inputLogEvent.message.length = 262119 :=
    List.length_replicate 262119 _
  have step2 : oversizedEvent.inputLogEvent.message.length + perEventHeaderBytes
      = 262145 := by
    rw [hlen]
    decide
  have heq : oversizedEvent.eventPayloadBytes = 262145 :=
    (Event.eventPayloadBytes_def oversizedEvent).trans step2
  have h : oversizedEvent.eventPayloadBytes > maxEventPayloadBytes := by
    rw [heq]
    decide
  exact ⟨h, (validate_truncates_oversized 0 oversizedEvent h).1,
    (validate_truncates_oversized 0 oversizedEvent h).2.1⟩

/-! ## C8 -/

instance : IsTotal InputLogEvent ByTimestamp :=
  ⟨fun a b => Int.le_total a.timestamp b.timestamp⟩

instance : IsTrans InputLogEvent ByTimestamp :=
  ⟨fun _ _ _ hab hbc => Int.le_trans hab hbc⟩

/-- Inserting an element with `orderedInsert` under `ByTimestamp` does
not disturb the subsequence of any fixed timestamp: every element
skipped over has a strictly smaller timestamp. -/
theorem filter_timestamp_orderedInsert (t : Int) (x : InputLogEvent)
    (l : List InputLogEvent) :
    (l.orderedInsert ByTimestamp x).filter (fun e => e.timestamp == t)
      = ((x :: l).filter (fun e => e.timestamp == t)) := by
  induction l with
  | nil => rfl
  | cons y ys ih =>
    rw [List.orderedInsert]
    by_cases hxy : ByTimestamp x y
    · rw [if_pos hxy]
    · rw [if_neg hxy]
      have hyx : y.timestamp < x.timestamp := by
        simpa [ByTimestamp, not_le] using hxy
      by_cases hx : x.timestamp = t
      · have hy : ¬(y.timestamp = t) := by omega
        simp [List.filter_cons, hx, hy, ih]
      · simp [List.filter_cons, hx, ih]

/-- C8: `sortLogEvents` leaves the batch events in non-decreasing
timestamp order, is a permutation of the appended events, and is
stable: for every timestamp value the subsequence of events carrying it
is unchanged, so equal-timestamp events keep their relative append
order. -/
theorem sortLogEvents_sorted_and_stable (batch : eventBatch) :
    (batch.sortLogEvents.putLogEventsInput.logEvents.Pairwise
        (fun a b => a.timestamp ≤ b.timestamp)) ∧
    List.Perm batch.sortLogEvents.putLogEventsInput.logEvents
      batch.putLogEventsInput.logEvents ∧
    ∀ t : Int,
      batch.sortLogEvents.putLogEventsInput.logEvents.filter (fun e => e.timestamp == t)
        = batch.putLogEventsInput.logEvents.filter (fun e => e.timestamp == t) := by
  refine ⟨?_, ?_, ?_⟩
  · exact List.sorted_insertionSort ByTimestamp batch.putLogEventsInput.logEvents
  · exact List.perm_insertionSort ByTimestamp batch.putLogEventsInput.logEvents
  · intro t
    show (List.insertionSort ByTimestamp batch.putLogEventsInput.logEvents).filter _ = _
    generalize batch.putLogEventsInput.logEvents = l
    induction l with
    | nil => rfl
    | cons x xs ih =>
      rw [List.insertionSort, filter_timestamp_orderedInsert]
      by_cases hx : x.timestamp = t
      · simp [List.filter_cons, hx, ih]
      · simp [List.filter_cons, hx, ih]

/-! ## C4 -/

/-- Wall clock for the 25-hours-apart scenario: 100 hours in ns. -/
def nowNs100h : Int := 100 * 3600 * 1000000000

/-- First scenario event, at 77 hours (23 hours before the clock). -/
def eventA1 : Event :=
  { inputLogEvent := { timestamp := 77 * 3600 * 1000, message := [104, 105] }
    generatedTimeMs := 0
    streamKey := keyA }

/-- Second scenario event, 25 hours after the first (2 hours ahead of
the clock, still inside the validity window). -/
def eventA2 : Event :=
  { inputLogEvent := { timestamp := 102 * 3600 * 1000, message := [104, 105] }
    generatedTimeMs := 0
    streamKey := keyA }

/-- C4: `isActive` accepts any timestamp on a fresh (empty) batch; on a
batch already holding events (nonzero, ordered, in-span min/max
trackers, as `append` maintains for validated events) it answers
`false` exactly when the candidate would stretch the min-to-max span
past 24 hours.  Consequently two events 25 hours apart make the second
`AddLogEntry` transmit the first batch — holding only the first event —
and start a new batch holding only the second. -/
theorem isActive_span_check_and_rollover :
    (∀ (key : StreamKey) (t : Int), (newEventBatch key).isActive t = true) ∧
    (∀ (batch : eventBatch) (t : Int),
        0 < batch.minTimestampMs →
        batch.minTimestampMs ≤ batch.maxTimestampMs →
        batch.maxTimestampMs - batch.minTimestampMs ≤ 24 * 3600 * 1000 →
        (batch.isActive t = false ↔
          max batch.maxTimestampMs t - min batch.minTimestampMs t > 24 * 3600 * 1000)) ∧
    ((newLogPusher keyA).AddLogEntry trivClient nowNs100h (some eventA1)).err = none ∧
    ((newLogPusher keyA).AddLogEntry trivClient nowNs100h (some eventA1)).transmitted
      = none ∧
    (((newLogPusher keyA).AddLogEntry trivClient nowNs100h
          (some eventA1)).pusher.AddLogEntry trivClient nowNs100h (some eventA2)).err
      = none ∧
    (((newLogPusher keyA).AddLogEntry trivClient nowNs100h
          (some eventA1)).pusher.AddLogEntry trivClient nowNs100h
          (some eventA2)).transmitted
      = some { logGroupName := "G", logStreamName := "A",
               logEvents := [eventA1.inputLogEvent], entity := none } ∧
    (((newLogPusher keyA).AddLogEntry trivClient nowNs100h
          (some eventA1)).pusher.AddLogEntry trivClient nowNs100h
          (some eventA2)).pusher.logEventBatch.putLogEventsInput.logEvents
      = [eventA2.inputLogEvent] := by
  refine ⟨?_, ?_, ?_, ?_, ?_, ?_, ?_⟩
  · intro key t
    rfl
  · intro batch t h1 h2 h3
    unfold eventBatch.isActive
    have hne : ¬(batch.minTimestampMs = 0 ∨ batch.maxTimestampMs = 0) := by omega
    rw [if_neg hne]
    split_ifs with ha hb
    · simp only [eq_self_iff_true, true_iff]
      omega
    · simp only [eq_self_iff_true, true_iff]
      omega
    · constructor
      · intro hcon
        exact absurd hcon (by simp)
      · intro hspan
        omega
  · decide
  · decide
  · decide
  · decide
  · decide

/-- Witness batch for C4: one event at 1 ms, trackers 1/1. -/
def batchOneEvent : eventBatch :=
  { putLogEventsInput :=
      { logGroupName := "G", logStreamName := "A"
        logEvents := [{ timestamp := 1, message := [97] }]
        entity := none }
    eventsCap := 10000
    byteTotal := 27
    minTimestampMs := 1
    maxTimestampMs := 1 }

/-- Witness for C4: instantiating the span criterion at a one-event
batch and a candidate 25 hours later. -/
theorem isActive_span_check_and_rollover_witness :
    (0 : Int) < batchOneEvent.minTimestampMs ∧
    (batchOneEvent.isActive 90000001 = false ↔
      max batchOneEvent.maxTimestampMs 90000001 - min batchOneEvent.minTimestampMs 90000001
        > 24 * 3600 * 1000) := by
  exact ⟨by decide, isActive_span_check_and_rollover.2.1 batchOneEvent 90000001
    (by decide) (by decide) (by decide)⟩

/-! ## C6 -/

/-- The timestamp `Validate` checks against the window: the event
timestamp after zero-timestamp defaulting from the generation time
(pusher.go lines 98-100). -/
def effectiveTimestampMs (e : Event) : Int :=
  if e.inputLogEvent.timestamp = 0 then e.generatedTimeMs else e.inputLogEvent.timestamp

/-- C6: when the effective timestamp is more than 14 days before or
more than 2 hours after the validation-time clock, `Validate` returns
an error, and `AddLogEntry` returns that same error while leaving the
pusher — in particular its batch, byte total and min/max trackers —
completely unchanged, transmitting nothing. -/
theorem validate_out_of_window_rejected (nowNs : Int) (e : Event)
    (h : nowNs - effectiveTimestampMs e * 1000000 > eventTimestampLimitInPast ∨
         nowNs - effectiveTimestampMs e * 1000000 < evenTimestampLimitInFuture) :
    (Event.Validate nowNs e).1.isSome = true ∧
    ∀ (client : Client) (p : logPusher),
      (p.AddLogEntry client nowNs (some e)).err = (Event.Validate nowNs e).1 ∧
      (p.AddLogEntry client nowNs (some e)).pusher = p ∧
      (p.AddLogEntry client nowNs (some e)).transmitted = none := by
  have hsome : (Event.Validate nowNs e).1.isSome = true := by
    unfold Event.Validate
    by_cases hA : e.eventPayloadBytes > maxEventPayloadBytes <;>
      by_cases hB : e.inputLogEvent.timestamp = 0 <;>
        simp only [effectiveTimestampMs, hB, if_true, if_false, ite_true, ite_false] at h <;>
        simp only [hA, hB, if_true, if_false, ite_true, ite_false] <;>
        split_ifs with h1 <;> rfl
  refine ⟨hsome, ?_⟩
  intro client p
  obtain ⟨m, hm⟩ := Option.isSome_iff_exists.mp hsome
  refine ⟨?_, ?_, ?_⟩ <;> simp [logPusher.AddLogEntry, hm]

/-- Witness event for C6: timestamp 1 ms after the epoch, far older
than 14 days for a clock set 2·10^15 ns (about 23 days) after the
epoch. -/
def staleEvent : Event :=
  { inputLogEvent := { timestamp := 1, message := [97] }
    generatedTimeMs := 0
    streamKey := keyA }

/-- Witness for C6 at `staleEvent`. -/
theorem validate_out_of_window_rejected_witness :
    (2000000000000000 - effectiveTimestampMs staleEvent * 1000000
        > eventTimestampLimitInPast ∨
      2000000000000000 - effectiveTimestampMs staleEvent * 1000000
        < evenTimestampLimitInFuture) ∧
    (Event.Validate 2000000000000000 staleEvent).1.isSome = true ∧
    ((newLogPusher keyA).AddLogEntry trivClient 2000000000000000 (some staleEvent)).pusher
      = newLogPusher keyA := by
  have h : 2000000000000000 - effectiveTimestampMs staleEvent * 1000000
        > eventTimestampLimitInPast ∨
      2000000000000000 - effectiveTimestampMs staleEvent * 1000000
        < evenTimestampLimitInFuture := by
    left
    decide
  exact ⟨h, (validate_out_of_window_rejected 2000000000000000 staleEvent h).1,
    ((validate_out_of_window_rejected 2000000000000000 staleEvent h).2 trivClient
      (newLogPusher keyA)).2.1⟩

/-! ## C9 -/

theorem runInitStreams_streams_mem (client : Client) (ks : List StreamKey)
    (lsm : logStreamManager) (h : String) :
    h ∈ (runInitStreams client lsm ks).2.1.streams ↔
      h ∈ lsm.streams ∨ h ∈ ks.map StreamKey.Hash := by
  induction ks generalizing lsm with
  | nil => simp [runInitStreams]
  | cons k ks ih =>
    by_cases hmem : k.Hash ∈ lsm.streams
    · simp only [runInitStreams, logStreamManager.InitStream, if_pos hmem, ih,
        List.map_cons, List.mem_cons]
      constructor
      · rintro (hl | hr)
        · exact Or.inl hl
        · exact Or.inr (Or.inr hr)
      · rintro (hl | he | hr)
        · exact Or.inl hl
        · exact Or.inl (he ▸ hmem)
        · exact Or.inr hr
    · simp only [runInitStreams, logStreamManager.InitStream, if_neg hmem, ih,
        List.map_cons, List.mem_cons]
      tauto

theorem runInitStreams_calls_nodup (client : Client) (ks : List StreamKey)
    (lsm : logStreamManager) :
    (∀ h ∈ (runInitStreams client lsm ks).2.2, h ∉ lsm.streams) ∧
    (runInitStreams client lsm ks).2.2.Nodup := by
  induction ks generalizing lsm with
  | nil => simp [runInitStreams]
  | cons k ks ih =>
    by_cases hmem : k.Hash ∈ lsm.streams
    · simpa [runInitStreams, logStreamManager.InitStream, if_pos hmem] using ih lsm
    · have ih' := ih { streams := k.Hash :: lsm.streams }
      simp only [runInitStreams, logStreamManager.InitStream, if_neg hmem, if_pos,
        List.singleton_append, List.mem_cons, List.nodup_cons]
      refine ⟨?_, ?_, ih'.2⟩
      · rintro h (rfl | hh)
        · exact hmem
        · intro hcon
          exact ih'.1 h hh (List.mem_cons_of_mem _ hcon)
      · intro hcon
        exact ih'.1 k.Hash hcon (List.mem_cons_self _ _)

theorem runInitStreams_append (client : Client) (as bs : List StreamKey)
    (lsm : logStreamManager) :
    runInitStreams client lsm (as ++ bs) =
      ((runInitStreams client lsm as).1
          ++ (runInitStreams client (runInitStreams client lsm as).2.1 bs).1,
        (runInitStreams client (runInitStreams client lsm as).2.1 bs).2.1,
        (runInitStreams client lsm as).2.2
          ++ (runInitStreams client (runInitStreams client lsm as).2.1 bs).2.2) := by
  induction as generalizing lsm with
  | nil => simp [runInitStreams]
  | cons a as ih =>
    simp [runInitStreams, ih, List.append_assoc]

theorem runInitStreams_length (client : Client) (ks : List StreamKey)
    (lsm : logStreamManager) :
    (runInitStreams client lsm ks).1.length = ks.length := by
  induction ks generalizing lsm with
  | nil => rfl
  | cons k ks ih => simp [runInitStreams, ih]

/-- C9: across any sequence of `InitStream` calls starting from a fresh
manager, `CreateStream` runs at most once per stream hash (the call
trace has no duplicate); the call at a position whose hash already
occurred earlier returns `nil` (even when that earlier call got an
error from `CreateStream`), while a call whose hash is new returns
exactly what `CreateStream` returns. -/
theorem initStream_creates_once_and_memoizes (client : Client)
    (ks₁ : List StreamKey) (k : StreamKey) (ks₂ : List StreamKey) :
    (runInitStreams client { streams := [] } (ks₁ ++ k :: ks₂)).2.2.Nodup ∧
    (k.Hash ∈ ks₁.map StreamKey.Hash →
      (runInitStreams client { streams := [] } (ks₁ ++ k :: ks₂)).1[ks₁.length]?
        = some none) ∧
    (k.Hash ∉ ks₁.map StreamKey.Hash →
      (runInitStreams client { streams := [] } (ks₁ ++ k :: ks₂)).1[ks₁.length]?
        = some (client.createStream k.logGroupName k.logStreamName)) := by
  have hnodup := (runInitStreams_calls_nodup client (ks₁ ++ k :: ks₂)
    { streams := [] }).2
  have happ := runInitStreams_append client ks₁ (k :: ks₂) { streams := [] }
  have hlen := runInitStreams_length client ks₁ { streams := [] }
  have hstreams := runInitStreams_streams_mem client ks₁ { streams := [] } k.Hash
  refine ⟨hnodup, ?_, ?_⟩
  · intro hearlier
    have hin : k.Hash ∈ (runInitStreams client { streams := [] } ks₁).2.1.streams := by
      rw [hstreams]
      exact Or.inr hearlier
    rw [happ]
    rw [List.getElem?_append_right (by rw [hlen])]
    simp [hlen, runInitStreams, logStreamManager.InitStream, if_pos hin]
  · intro hnew
    have hout : k.Hash ∉ (runInitStreams client { streams := [] } ks₁).2.1.streams := by
      rw [hstreams]
      simp only [List.not_mem_nil, false_or]
      exact hnew
    rw [happ]
    rw [List.getElem?_append_right (by rw [hlen])]
    simp [hlen, runInitStreams, logStreamManager.InitStream, if_neg hout]

/-- A client whose `CreateStream` always fails, to exercise the
memoize-even-on-error behaviour. -/
def failingCreateClient : Client :=
  { putLogEvents := fun _ _ => none, createStream := fun _ _ => some "create failed" }

/-- Witness for C9: with a failing `CreateStream`, the first call for
`keyA` surfaces the error and the second call for the same key returns
`nil`; `CreateStream` ran only once. -/
theorem initStream_creates_once_and_memoizes_witness :
    (keyA.Hash ∈ [keyA].map StreamKey.Hash) ∧
    (runInitStreams failingCreateClient { streams := [] } ([keyA] ++ keyA :: [])).1[1]?
      = some none ∧
    (runInitStreams failingCreateClient { streams := [] } ([keyA] ++ keyA :: [])).2.2.Nodup := by
  have hmem : keyA.Hash ∈ [keyA].map StreamKey.Hash := by
    simp
  have hlen1 : [keyA].length = 1 := rfl
  refine ⟨hmem, ?_, ?_⟩
  · have := (initStream_creates_once_and_memoizes failingCreateClient [keyA] keyA []).2.1 hmem
    simpa using this
  · exact (initStream_creates_once_and_memoizes failingCreateClient [keyA] keyA []).1

/-! ## Association-list lemmas -/

theorem mapLookup_eq_none_of_not_mem {α : Type} (k : String) (l : List (String × α))
    (h : k ∉ l.map Prod.fst) : mapLookup k l = none := by
  induction l with
  | nil => rfl
  | cons p rest ih =>
    obtain ⟨k1, v1⟩ := p
    simp only [List.map_cons, List.mem_cons, not_or] at h
    rw [mapLookup, if_neg (fun hc => h.1 hc.symm)]
    exact ih h.2

theorem mapLookup_isSome_iff_mem {α : Type} (k : String) (l : List (String × α)) :
    (mapLookup k l).isSome = true ↔ k ∈ l.map Prod.fst := by
  induction l with
  | nil => simp [mapLookup]
  | cons p rest ih =>
    by_cases hk : p.1 = k
    · simp [mapLookup, hk]
    · simp [mapLookup, hk, ih, Ne.symm hk]

theorem mapLookup_mem {α : Type} (k : String) (v : α) (l : List (String × α))
    (h : mapLookup k l = some v) : (k, v) ∈ l := by
  induction l with
  | nil => simp [mapLookup] at h
  | cons p rest ih =>
    obtain ⟨k1, v1⟩ := p
    by_cases hk : k1 = k
    · rw [mapLookup, if_pos hk] at h
      obtain rfl := Option.some.inj h
      subst hk
      exact List.mem_cons_self _ _
    · rw [mapLookup, if_neg hk] at h
      exact List.mem_cons_of_mem _ (ih h)

theorem mapLookup_of_nodup_mem {α : Type} (k : String) (v : α) (l : List (String × α))
    (hnd : (l.map Prod.fst).Nodup) (h : (k, v) ∈ l) : mapLookup k l = some v := by
  induction l with
  | nil => simp at h
  | cons p rest ih =>
    simp only [List.map_cons, List.nodup_cons] at hnd
    rcases List.mem_cons.mp h with heq | hmem
    · rw [← heq]
      simp [mapLookup]
    · have hne : p.1 ≠ k := by
        intro hc
        exact hnd.1 (hc ▸ (List.mem_map.mpr ⟨(k, v), hmem, rfl⟩))
      rw [mapLookup, if_neg hne]
      exact ih hnd.2 hmem

theorem mapInsert_of_not_mem {α : Type} (k : String) (v : α) (l : List (String × α))
    (h : k ∉ l.map Prod.fst) : mapInsert k v l = l ++ [(k, v)] := by
  induction l with
  | nil => rfl
  | cons p rest ih =>
    obtain ⟨k1, v1⟩ := p
    simp only [List.map_cons, List.mem_cons, not_or] at h
    rw [mapInsert, if_neg (fun hc => h.1 hc.symm), List.cons_append]
    rw [ih h.2]

theorem map_fst_mapInsert {α : Type} (k : String) (v : α) (l : List (String × α)) :
    (mapInsert k v l).map Prod.fst
      = if k ∈ l.map Prod.fst then l.map Prod.fst else l.map Prod.fst ++ [k] := by
  induction l with
  | nil => rfl
  | cons p rest ih =>
    by_cases hk : p.1 = k
    · simp [mapInsert, hk]
    · simp only [mapInsert, if_neg hk, List.map_cons, ih]
      by_cases hmem : k ∈ rest.map Prod.fst
      · simp [hmem, Ne.symm hk]
      · simp [hmem, Ne.symm hk]

theorem length_mapInsert_le {α : Type} (k : String) (v : α) (l : List (String × α)) :
    (mapInsert k v l).length ≤ l.length + 1 := by
  induction l with
  | nil => simp [mapInsert]
  | cons p rest ih =>
    by_cases hk : p.1 = k
    · simp [mapInsert, hk]
    · simp only [mapInsert, if_neg hk, List.length_cons]
      omega

theorem mapLookup_mapInsert_self {α : Type} (k : String) (v : α) (l : List (String × α)) :
    mapLookup k (mapInsert k v l) = some v := by
  induction l with
  | nil => simp [mapInsert, mapLookup]
  | cons p rest ih =>
    by_cases hk : p.1 = k
    · simp [mapInsert, hk, mapLookup]
    · simp [mapInsert, hk, mapLookup, ih]

theorem mapLookup_mapInsert_ne {α : Type} (k k' : String) (v : α) (l : List (String × α))
    (h : k' ≠ k) : mapLookup k' (mapInsert k v l) = mapLookup k' l := by
  induction l with
  | nil =>
    simp [mapInsert, mapLookup, Ne.symm h]
  | cons p rest ih =>
    obtain ⟨k1, v1⟩ := p
    by_cases hk : k1 = k
    · rw [mapInsert, if_pos hk, mapLookup, if_neg (fun hc => h hc.symm), mapLookup,
        if_neg (fun hc => h (hk ▸ hc).symm)]
    · rw [mapInsert, if_neg hk]
      by_cases hk' : k1 = k'
      · rw [mapLookup, if_pos hk', mapLookup, if_pos hk']
      · rw [mapLookup, if_neg hk', mapLookup, if_neg hk', ih]

theorem map_fst_filter_fst {α : Type} (q : String → Bool) (l : List (String × α)) :
    (l.filter (fun p => q p.1)).map Prod.fst = (l.map Prod.fst).filter q := by
  induction l with
  | nil => rfl
  | cons p rest ih =>
    by_cases hq : q p.1
    · simp [List.filter_cons, hq, ih]
    · simp only [List.filter_cons, List.map_cons]
      rw [if_neg (by simp [hq]), if_neg (by simp [hq])]
      exact ih

theorem mapLookup_filter_fst {α : Type} (q : String → Bool) (k : String)
    (l : List (String × α)) :
    mapLookup k (l.filter (fun p => q p.1))
      = if q k then mapLookup k l else none := by
  induction l with
  | nil => simp [mapLookup]
  | cons p rest ih =>
    obtain ⟨k1, v1⟩ := p
    by_cases hk : k1 = k
    · subst hk
      by_cases hq : q k1 <;> simp [List.filter_cons, hq, mapLookup, ih]
    · by_cases hq : q k1 <;> simp [List.filter_cons, hq, mapLookup, hk, ih]

/-! ## C7 -/

theorem evict_eq (now : Int) (bpm : BoundedPusherMap π) :
    bpm.EvictStalePushers now =
      if bpm.pusherMap.length < bpm.limit then (none, bpm)
      else if (bpm.pusherMap.filter (fun p => !(bpm.isStaleAt now p.1))).length
          ≥ bpm.limit then
        (some "too many emf pushers being created. Dropping the request",
          { bpm with
            pusherMap := bpm.pusherMap.filter (fun p => !(bpm.isStaleAt now p.1))
            stalePusherTracker :=
              bpm.stalePusherTracker.filter (fun p => !(decide (now - p.2 > hourNs))) })
      else
        (none,
          { bpm with
            pusherMap := bpm.pusherMap.filter (fun p => !(bpm.isStaleAt now p.1))
            stalePusherTracker :=
              bpm.stalePusherTracker.filter (fun p => !(decide (now - p.2 > hourNs))) }) :=
  rfl

theorem evict_limit (now : Int) (bpm : BoundedPusherMap π) :
    (bpm.EvictStalePushers now).2.limit = bpm.limit := by
  rw [evict_eq]
  split_ifs <;> rfl

theorem evict_length_le (now : Int) (bpm : BoundedPusherMap π) :
    (bpm.EvictStalePushers now).2.pusherMap.length ≤ bpm.pusherMap.length := by
  rw [evict_eq]
  split_ifs with h1 h2
  · exact Nat.le_refl _
  · exact List.length_filter_le _ _
  · exact List.length_filter_le _ _

theorem evict_none_lt (now : Int) (bpm : BoundedPusherMap π)
    (h : (bpm.EvictStalePushers now).1 = none) :
    (bpm.EvictStalePushers now).2.pusherMap.length < bpm.limit := by
  rw [evict_eq] at h ⊢
  split_ifs at h ⊢ with h1 h2
  all_goals simp_all

theorem get_pusherMap (now : Int) (k : String) (bpm : BoundedPusherMap π) :
    (bpm.Get now k).2.pusherMap = bpm.pusherMap := by
  unfold BoundedPusherMap.Get
  cases mapLookup k bpm.pusherMap <;> rfl

theorem get_limit (now : Int) (k : String) (bpm : BoundedPusherMap π) :
    (bpm.Get now k).2.limit = bpm.limit := by
  unfold BoundedPusherMap.Get
  cases mapLookup k bpm.pusherMap <;> rfl

theorem add_limit (now : Int) (k : String) (v : π) (bpm : BoundedPusherMap π) :
    (bpm.Add now k v).2.limit = bpm.limit := by
  unfold BoundedPusherMap.Add
  cases hE : (bpm.EvictStalePushers now).1 <;>
    simp only [hE] <;>
    exact evict_limit now bpm

theorem add_card_le (now : Int) (k : String) (v : π) (bpm : BoundedPusherMap π)
    (h : bpm.pusherMap.length ≤ bpm.limit) :
    (bpm.Add now k v).2.pusherMap.length ≤ bpm.limit := by
  unfold BoundedPusherMap.Add
  cases hE : (bpm.EvictStalePushers now).1 with
  | some e =>
    simp only [hE]
    exact Nat.le_trans (evict_length_le now bpm) h
  | none =>
    simp only [hE]
    have hlt := evict_none_lt now bpm hE
    have hle := length_mapInsert_le k v (bpm.EvictStalePushers now).2.pusherMap
    omega

theorem runBPMOps_card {π : Type} (ops : List (BPMOp π)) :
    ∀ (st : BoundedPusherMap π), st.pusherMap.length ≤ st.limit →
      (runBPMOps ops st).pusherMap.length ≤ (runBPMOps ops st).limit ∧
      (runBPMOps ops st).limit = st.limit := by
  induction ops with
  | nil => exact fun st h => ⟨h, rfl⟩
  | cons op ops ih =>
    intro st h
    have hstep : (op.apply st).pusherMap.length ≤ (op.apply st).limit ∧
        (op.apply st).limit = st.limit := by
      cases op with
      | add now k v =>
        simp only [BPMOp.apply]
        refine ⟨?_, add_limit now k v st⟩
        rw [add_limit now k v st]
        exact add_card_le now k v st h
      | get now k =>
        rw [BPMOp.apply, get_pusherMap, get_limit]
        exact ⟨h, rfl⟩
      | evict now =>
        rw [BPMOp.apply, evict_limit]
        exact ⟨Nat.le_trans (evict_length_le now st) h, rfl⟩
    have hrun : runBPMOps (op :: ops) st = runBPMOps ops (op.apply st) := rfl
    rw [hrun]
    obtain ⟨h1, h2⟩ := ih (op.apply st) hstep.1
    exact ⟨h1, h2.trans hstep.2⟩

theorem addAllFresh_append (now : Int) (mkv : String → π) (as bs : List String) :
    ∀ (st : BoundedPusherMap π),
      addAllFresh now mkv (as ++ bs) st
        = ((addAllFresh now mkv as st).1
            ++ (addAllFresh now mkv bs (addAllFresh now mkv as st).2).1,
           (addAllFresh now mkv bs (addAllFresh now mkv as st).2).2) := by
  induction as with
  | nil => intro st; simp [addAllFresh]
  | cons a as iha =>
    intro st
    simp only [List.cons_append, addAllFresh, List.append_eq, iha, List.append_assoc]

theorem addAllFresh_under (now : Int) (mkv : String → π) :
    ∀ (keys : List String) (st : BoundedPusherMap π),
      keys.Nodup →
      (∀ k ∈ keys, k ∉ st.pusherMap.map Prod.fst) →
      (∀ k ∈ keys, k ∉ st.stalePusherTracker.map Prod.fst) →
      st.pusherMap.length + keys.length ≤ st.limit →
      addAllFresh now mkv keys st
        = (List.replicate keys.length none,
           { pusherMap := st.pusherMap ++ keys.map (fun k => (k, mkv k))
             limit := st.limit
             stalePusherTracker :=
               st.stalePusherTracker ++ keys.map (fun k => (k, now)) }) := by
  intro keys
  induction keys with
  | nil =>
    intro st _ _ _ _
    simp [addAllFresh]
  | cons k ks ih =>
    intro st hnd hpm htr hcard
    have hklt : st.pusherMap.length < st.limit := by
      simp only [List.length_cons] at hcard
      omega
    have hevict : st.EvictStalePushers now = (none, st) := by
      unfold BoundedPusherMap.EvictStalePushers
      rw [if_pos hklt]
    have hadd : st.Add now k (mkv k)
        = (none, { pusherMap := st.pusherMap ++ [(k, mkv k)]
                   limit := st.limit
                   stalePusherTracker := st.stalePusherTracker ++ [(k, now)] }) := by
      unfold BoundedPusherMap.Add
      rw [hevict]
      simp only
      rw [mapInsert_of_not_mem k (mkv k) st.pusherMap (hpm k (List.mem_cons_self _ _)),
        mapInsert_of_not_mem k now st.stalePusherTracker (htr k (List.mem_cons_self _ _))]
    have hnd' := (List.nodup_cons.mp hnd).2
    have hknotin := (List.nodup_cons.mp hnd).1
    rw [addAllFresh, hadd]
    simp only
    rw [ih _ hnd' ?_ ?_ ?_]
    · simp [List.replicate_succ, List.append_assoc]
    · intro k' hk'
      simp only [List.map_append, List.map_cons, List.map_nil, List.mem_append,
        List.mem_singleton, not_or]
      exact ⟨hpm k' (List.mem_cons_of_mem _ hk'), fun hc => hknotin (hc ▸ hk')⟩
    · intro k' hk'
      simp only [List.map_append, List.map_cons, List.map_nil, List.mem_append,
        List.mem_singleton, not_or]
      exact ⟨htr k' (List.mem_cons_of_mem _ hk'), fun hc => hknotin (hc ▸ hk')⟩
    · simp only [List.length_append, List.length_cons, List.length_nil] at *
      omega

theorem add_fresh_at_capacity_fails (now : Int) (k : String) (v : π)
    (st : BoundedPusherMap π)
    (hlen : st.pusherMap.length = st.limit)
    (hfresh : ∀ p ∈ st.stalePusherTracker, ¬(now - p.2 > hourNs)) :
    st.Add now k v
      = (some "too many emf pushers being created. Dropping the request", st) := by
  have hstale : ∀ k', st.isStaleAt now k' = false := by
    intro k'
    unfold BoundedPusherMap.isStaleAt
    cases hl : mapLookup k' st.stalePusherTracker with
    | none => rfl
    | some t => simp [hfresh _ (mapLookup_mem _ _ _ hl)]
  have hpm : st.pusherMap.filter (fun p => !(st.isStaleAt now p.1)) = st.pusherMap :=
    List.filter_eq_self.mpr (fun p _ => by simp [hstale])
  have htr : st.stalePusherTracker.filter (fun p => !(decide (now - p.2 > hourNs)))
      = st.stalePusherTracker :=
    List.filter_eq_self.mpr (fun p hp => by simp [hfresh p hp])
  have hevict : st.EvictStalePushers now
      = (some "too many emf pushers being created. Dropping the request", st) := by
    rw [evict_eq, hpm, htr]
    rw [if_neg (by omega)]
    rw [if_pos (by omega)]
  unfold BoundedPusherMap.Add
  rw [hevict]

theorem add_evicts_idle_and_succeeds (now : Int) (k : String) (v : π)
    (st : BoundedPusherMap π)
    (hcap : ¬ st.pusherMap.length < st.limit)
    (hroom : (st.pusherMap.filter (fun p => !(st.isStaleAt now p.1))).length < st.limit) :
    (st.Add now k v).1 = none ∧
    mapLookup k (st.Add now k v).2.pusherMap = some v ∧
    ∀ k', st.isStaleAt now k' = true → k' ≠ k →
      mapLookup k' (st.Add now k v).2.pusherMap = none := by
  have hevict : st.EvictStalePushers now
      = (none, { st with
          pusherMap := st.pusherMap.filter (fun p => !(st.isStaleAt now p.1))
          stalePusherTracker :=
            st.stalePusherTracker.filter (fun p => !(decide (now - p.2 > hourNs))) }) := by
    rw [evict_eq, if_neg hcap, if_neg (by simpa using hroom)]
  have hadd : st.Add now k v
      = (none, { st with
          pusherMap := mapInsert k v
            (st.pusherMap.filter (fun p => !(st.isStaleAt now p.1)))
          stalePusherTracker := mapInsert k now
            (st.stalePusherTracker.filter (fun p => !(decide (now - p.2 > hourNs)))) }) := by
    unfold BoundedPusherMap.Add
    rw [hevict]
  refine ⟨by rw [hadd], by rw [hadd]; exact mapLookup_mapInsert_self _ _ _, ?_⟩
  intro k' hk' hne
  rw [hadd]
  simp only
  rw [mapLookup_mapInsert_ne k k' v _ hne]
  rw [mapLookup_filter_fst (fun k0 => !(st.isStaleAt now k0)) k' st.pusherMap]
  rw [if_neg (by simp [hk'])]

/-- C7: the `BoundedPusherMap` capacity discipline.  First, starting
from `NewBoundedPusherMap` (capacity `pusherMapLimit` = 1000), no
sequence of `Add`, `Get` and `EvictStalePushers` operations ever leaves
more than `pusherMapLimit` cached pushers.  Second, on a map of
capacity `L` holding only fresh entries, adding `L + 1` distinct keys
at one instant succeeds exactly `L` times: the last `Add` reports the
eviction error, the map keeps exactly `L` entries, and the last key is
absent.  Third, an `Add` hitting a full map that does hold entries idle
beyond one hour evicts them and succeeds: no error, the new key is
cached, and every idle key (other than the one re-added) is gone. -/
theorem boundedPusherMap_capacity_discipline :
    (∀ (π : Type) (ops : List (BPMOp π)),
      (runBPMOps ops NewBoundedPusherMap).pusherMap.length ≤ pusherMapLimit) ∧
    (∀ (π : Type), (NewBoundedPusherMap : BoundedPusherMap π).limit = 1000) ∧
    (∀ (π : Type) (now : Int) (mkv : String → π) (ks : List String) (klast : String)
        (L : Nat),
      (ks ++ [klast]).Nodup → ks.length = L →
      (addAllFresh now mkv (ks ++ [klast]) (mkBoundedPusherMap L)).1
        = List.replicate L none
            ++ [some "too many emf pushers being created. Dropping the request"] ∧
      (addAllFresh now mkv (ks ++ [klast]) (mkBoundedPusherMap L)).2.pusherMap.length
        = L ∧
      mapLookup klast
        (addAllFresh now mkv (ks ++ [klast]) (mkBoundedPusherMap L)).2.pusherMap
        = none) ∧
    (∀ (π : Type) (now : Int) (k : String) (v : π) (st : BoundedPusherMap π),
      ¬ st.pusherMap.length < st.limit →
      (st.pusherMap.filter (fun p => !(st.isStaleAt now p.1))).length < st.limit →
      (st.Add now k v).1 = none ∧
      mapLookup k (st.Add now k v).2.pusherMap = some v ∧
      ∀ k', st.isStaleAt now k' = true → k' ≠ k →
        mapLookup k' (st.Add now k v).2.pusherMap = none) := by
  refine ⟨?_, fun _ => rfl, ?_, ?_⟩
  · intro π ops
    have h := runBPMOps_card ops (NewBoundedPusherMap : BoundedPusherMap π)
      (by simp [NewBoundedPusherMap, mkBoundedPusherMap])
    rw [← show (NewBoundedPusherMap : BoundedPusherMap π).limit = pusherMapLimit from rfl,
      ← h.2]
    exact h.1
  · intro π now mkv ks klast L hnd hlen
    subst hlen
    have hnd1 : ks.Nodup := (List.nodup_append.mp hnd).1
    have hkl : klast ∉ ks := by
      intro hc
      exact (List.nodup_append.mp hnd).2.2 hc (List.mem_singleton.mpr rfl)
    have hrun := addAllFresh_under now mkv ks (mkBoundedPusherMap ks.length)
      hnd1 (by simp [mkBoundedPusherMap]) (by simp [mkBoundedPusherMap])
      (by simp [mkBoundedPusherMap])
    have happ := addAllFresh_append now mkv ks [klast] (mkBoundedPusherMap ks.length)
    set st1 : BoundedPusherMap π :=
      { pusherMap := ks.map (fun k0 => (k0, mkv k0))
        limit := ks.length
        stalePusherTracker := ks.map (fun k0 => (k0, now)) } with hst1
    have hrun' : addAllFresh now mkv ks (mkBoundedPusherMap ks.length)
        = (List.replicate ks.length none, st1) := by
      rw [hrun]
      simp [mkBoundedPusherMap, hst1]
    have hfail : st1.Add now klast (mkv klast)
        = (some "too many emf pushers being created. Dropping the request", st1) := by
      apply add_fresh_at_capacity_fails
      · simp [hst1]
      · intro p hp
        rw [hst1] at hp
        simp only [List.mem_map] at hp
        obtain ⟨k0, _, rfl⟩ := hp
        simp only
        unfold hourNs
        omega
    have hlast : addAllFresh now mkv [klast] st1
        = ([some "too many emf pushers being created. Dropping the request"], st1) := by
      rw [addAllFresh, hfail]
      rfl
    have hfinal : addAllFresh now mkv (ks ++ [klast]) (mkBoundedPusherMap ks.length)
        = (List.replicate ks.length none
            ++ [some "too many emf pushers being created. Dropping the request"], st1) := by
      rw [happ, hrun', hlast]
    rw [hfinal]
    refine ⟨rfl, by simp [hst1], ?_⟩
    apply mapLookup_eq_none_of_not_mem
    rw [hst1]
    simp only [List.map_map]
    simpa using hkl
  · intro π now k v st h1 h2
    exact add_evicts_idle_and_succeeds now k v st h1 h2

/-- Witness for C7: capacity 2, three distinct fresh keys — the first
two are cached, the third add fails and leaves the map at 2 entries
with the last key absent. -/
theorem boundedPusherMap_capacity_discipline_witness :
    ((["a", "b"] ++ ["c"]).Nodup ∧ (["a", "b"] : List String).length = 2) ∧
    (addAllFresh 0 (fun _ => ()) (["a", "b"] ++ ["c"])
        (mkBoundedPusherMap 2)).2.pusherMap.length = 2 ∧
    mapLookup "c" (addAllFresh 0 (fun _ => ()) (["a", "b"] ++ ["c"])
        (mkBoundedPusherMap 2)).2.pusherMap = none := by
  have h := boundedPusherMap_capacity_discipline.2.2.1 Unit 0 (fun _ => ())
    ["a", "b"] "c" 2 (by decide) rfl
  exact ⟨⟨by decide, rfl⟩, h.2.1, h.2.2⟩

/-! ## C10 -/

theorem nodup_append_singleton {l : List String} {k : String}
    (h : l.Nodup) (hk : k ∉ l) : (l ++ [k]).Nodup := by
  rw [List.nodup_append]
  refine ⟨h, List.nodup_singleton k, ?_⟩
  intro a ha hb
  rw [List.mem_singleton] at hb
  subst hb
  exact hk ha

theorem evict_keys_aligned (now : Int) (st : BoundedPusherMap π)
    (hkeys : st.pusherMap.map Prod.fst = st.stalePusherTracker.map Prod.fst)
    (hnd : (st.pusherMap.map Prod.fst).Nodup) :
    ((st.EvictStalePushers now).2.pusherMap.map Prod.fst
        = (st.EvictStalePushers now).2.stalePusherTracker.map Prod.fst) ∧
    (((st.EvictStalePushers now).2.pusherMap.map Prod.fst).Nodup) := by
  rw [evict_eq]
  split_ifs with h1 h2
  · exact ⟨hkeys, hnd⟩
  all_goals {
    simp only
    have htr : st.stalePusherTracker.filter (fun p => !(decide (now - p.2 > hourNs)))
        = st.stalePusherTracker.filter (fun p => !(st.isStaleAt now p.1)) := by
      apply List.filter_congr
      intro p hp
      have hl : mapLookup p.1 st.stalePusherTracker = some p.2 := by
        apply mapLookup_of_nodup_mem
        · rw [← hkeys]
          exact hnd
        · exact hp
      unfold BoundedPusherMap.isStaleAt
      rw [hl]
    constructor
    · rw [htr, map_fst_filter_fst (fun k0 => !(st.isStaleAt now k0)) st.pusherMap,
        map_fst_filter_fst (fun k0 => !(st.isStaleAt now k0)) st.stalePusherTracker,
        hkeys]
    · rw [map_fst_filter_fst (fun k0 => !(st.isStaleAt now k0)) st.pusherMap]
      exact hnd.sublist (List.filter_sublist _)
  }

theorem insert_both_keys_aligned {π : Type} (k : String) (v : π) (now : Int)
    (pm : List (String × π)) (tr : List (String × Int))
    (hkeys : pm.map Prod.fst = tr.map Prod.fst)
    (hnd : (pm.map Prod.fst).Nodup) :
    ((mapInsert k v pm).map Prod.fst = (mapInsert k now tr).map Prod.fst) ∧
    (((mapInsert k v pm).map Prod.fst).Nodup) := by
  rw [map_fst_mapInsert, map_fst_mapInsert, ← hkeys]
  by_cases hmem : k ∈ pm.map Prod.fst
  · rw [if_pos hmem]
    exact ⟨rfl, hnd⟩
  · rw [if_neg hmem]
    exact ⟨rfl, nodup_append_singleton hnd hmem⟩

theorem apply_keys_aligned (op : BPMOp π) (st : BoundedPusherMap π)
    (hkeys : st.pusherMap.map Prod.fst = st.stalePusherTracker.map Prod.fst)
    (hnd : (st.pusherMap.map Prod.fst).Nodup) :
    ((op.apply st).pusherMap.map Prod.fst
        = (op.apply st).stalePusherTracker.map Prod.fst) ∧
    (((op.apply st).pusherMap.map Prod.fst).Nodup) := by
  cases op with
  | evict now =>
    exact evict_keys_aligned now st hkeys hnd
  | get now k =>
    simp only [BPMOp.apply]
    unfold BoundedPusherMap.Get
    cases hl : mapLookup k st.pusherMap with
    | none => exact ⟨hkeys, hnd⟩
    | some v =>
      simp only
      have hmem : k ∈ st.pusherMap.map Prod.fst := by
        rw [← mapLookup_isSome_iff_mem, hl]
        rfl
      rw [map_fst_mapInsert, if_pos (hkeys ▸ hmem)]
      exact ⟨hkeys, hnd⟩
  | add now k v =>
    simp only [BPMOp.apply]
    unfold BoundedPusherMap.Add
    have hev := evict_keys_aligned now st hkeys hnd
    cases hE : (st.EvictStalePushers now).1 with
    | some e =>
      simp only [hE]
      exact hev
    | none =>
      simp only [hE]
      exact insert_both_keys_aligned k v now _ _ hev.1 hev.2

theorem runBPMOps_keys_aligned {π : Type} (ops : List (BPMOp π)) :
    ∀ (st : BoundedPusherMap π),
      st.pusherMap.map Prod.fst = st.stalePusherTracker.map Prod.fst →
      (st.pusherMap.map Prod.fst).Nodup →
      ((runBPMOps ops st).pusherMap.map Prod.fst
          = (runBPMOps ops st).stalePusherTracker.map Prod.fst) ∧
      (((runBPMOps ops st).pusherMap.map Prod.fst).Nodup) := by
  induction ops with
  | nil => exact fun st h hn => ⟨h, hn⟩
  | cons op ops ih =>
    intro st h hn
    have hstep := apply_keys_aligned op st h hn
    exact ih (op.apply st) hstep.1 hstep.2

/-- C10: starting from `NewBoundedPusherMap`, after any sequence of
`Add`, `Get` and `EvictStalePushers` operations the pusher map and the
stale-pusher tracker hold exactly the same keys: a key has a cached
pusher if and only if it has a tracked last-access timestamp. -/
theorem boundedPusherMap_tracker_in_sync :
    ∀ (π : Type) (ops : List (BPMOp π)) (k : String),
      (mapLookup k (runBPMOps ops NewBoundedPusherMap).pusherMap).isSome = true ↔
      (mapLookup k (runBPMOps ops NewBoundedPusherMap).stalePusherTracker).isSome
        = true := by
  intro π ops k
  have h := runBPMOps_keys_aligned ops (NewBoundedPusherMap : BoundedPusherMap π)
    rfl List.nodup_nil
  rw [mapLookup_isSome_iff_mem, mapLookup_isSome_iff_mem, h.1]

/-! ## C2 -/

/-- A stream key whose stream name is `n` repetitions of `a`; distinct
`n` give distinct `Hash` values (witnessed by the hash length). -/
def unaryKey (n : Nat) : StreamKey :=
  { logGroupName := "G"
    logStreamName := String.mk (List.replicate n 'a')
    entity := none }

theorem unaryKey_hash_length (n : Nat) : (unaryKey n).Hash.length = n + 4 := by
  have hs : (String.mk (List.replicate n 'a')).length = n := by
    show (List.replicate n 'a').length = n
    exact List.length_replicate n _
  simp only [StreamKey.Hash, unaryKey, String.length_append, hs]
  have h1 : "G".length = 1 := rfl
  have h2 : "|".length = 1 := rfl
  have h3 : "".length = 0 := rfl
  rw [h1, h2, h3]
  omega

theorem unaryKey_hash_inj : Function.Injective fun n => (unaryKey n).Hash := by
  intro a b hab
  have h := congrArg String.length hab
  simpa [unaryKey_hash_length] using h

/-- A minimal valid event for stream key `k`: one byte, timestamp
1000 ms. -/
def mkEventForKey (k : StreamKey) : Event :=
  { inputLogEvent := { timestamp := 1000, message := [97] }
    generatedTimeMs := 0
    streamKey := k }

/-- The wall clock matching `mkEventForKey` timestamps exactly. -/
def nowNsC2 : Int := 1000000000

theorem freshPusher_add_err (k : StreamKey) :
    ((NewPusher k 1).AddLogEntry trivClient nowNsC2 (some (mkEventForKey k))).err
      = none := rfl

theorem multiAdd_fresh_step (m : multiStreamPusher) (k : StreamKey)
    (hk : mapLookup k.Hash m.pusherMap = none) :
    (m.AddLogEntry trivClient nowNsC2 (mkEventForKey k)).err = none ∧
    (m.AddLogEntry trivClient nowNsC2 (mkEventForKey k)).state.pusherMap
      = m.pusherMap ++
          [(k.Hash,
            ((NewPusher k 1).AddLogEntry trivClient nowNsC2
                (some (mkEventForKey k))).pusher)] := by
  have herr : (m.logStreamManager.InitStream trivClient k).err = none := by
    unfold logStreamManager.InitStream
    split_ifs <;> rfl
  have hnotmem : k.Hash ∉ m.pusherMap.map Prod.fst := by
    intro hc
    rw [← mapLookup_isSome_iff_mem, hk] at hc
    exact absurd hc (by simp)
  unfold multiStreamPusher.AddLogEntry
  simp only [show (mkEventForKey k).streamKey = k from rfl]
  rw [herr]
  simp only [hk]
  constructor
  · exact freshPusher_add_err k
  · exact mapInsert_of_not_mem _ _ _ hnotmem

theorem runMultiAdds_fresh :
    ∀ (ks : List StreamKey) (m : multiStreamPusher),
      (ks.map StreamKey.Hash).Nodup →
      (∀ k ∈ ks, mapLookup k.Hash m.pusherMap = none) →
      (runMultiAdds trivClient nowNsC2 m (ks.map mkEventForKey)).1
        = List.replicate ks.length none ∧
      (runMultiAdds trivClient nowNsC2 m (ks.map mkEventForKey)).2.pusherMap.length
        = m.pusherMap.length + ks.length := by
  intro ks
  induction ks with
  | nil =>
    intro m _ _
    exact ⟨rfl, rfl⟩
  | cons k ks ih =>
    intro m hnd hlk
    have hstep := multiAdd_fresh_step m k (hlk k (List.mem_cons_self _ _))
    have hpair : (∀ x ∈ ks, ¬x.Hash = k.Hash) ∧ (ks.map StreamKey.Hash).Nodup := by
      simpa using hnd
    have hnd' := hpair.2
    have hkne : ∀ k' ∈ ks, k'.Hash ≠ k.Hash := hpair.1
    have hlk' : ∀ k' ∈ ks,
        mapLookup k'.Hash
          (m.AddLogEntry trivClient nowNsC2 (mkEventForKey k)).state.pusherMap
          = none := by
      intro k' hk'
      rw [hstep.2]
      apply mapLookup_eq_none_of_not_mem
      rw [List.map_append]
      simp only [List.map_cons, List.map_nil, List.mem_append, List.mem_singleton,
        not_or]
      constructor
      · intro hc
        rw [← mapLookup_isSome_iff_mem, hlk k' (List.mem_cons_of_mem _ hk')] at hc
        exact absurd hc (by simp)
      · exact hkne k' hk'
    have hrec := ih (m.AddLogEntry trivClient nowNsC2 (mkEventForKey k)).state hnd' hlk'
    have hlen1 : (m.AddLogEntry trivClient nowNsC2 (mkEventForKey k)).state.pusherMap.length
        = m.pusherMap.length + 1 := by
      rw [hstep.2]
      simp
    constructor
    · show (m.AddLogEntry trivClient nowNsC2 (mkEventForKey k)).err
          :: (runMultiAdds trivClient nowNsC2 _ (ks.map mkEventForKey)).1
        = List.replicate (ks.length + 1) none
      rw [hstep.1, hrec.1, List.replicate_succ]
    · show (runMultiAdds trivClient nowNsC2
            (m.AddLogEntry trivClient nowNsC2 (mkEventForKey k)).state
            (ks.map mkEventForKey)).2.pusherMap.length
        = m.pusherMap.length + (ks.length + 1)
      rw [hrec.2, hlen1]
      omega

/-- C2 counterexample: 1001 `AddLogEntry` calls with pairwise-distinct
stream keys all succeed, and `multiStreamPusher` then caches 1001
pushers — more than the `BoundedPusherMap` capacity of 1000, which the
plain `pusherMap` of pusher.go line 361 never consults. -/
theorem multiStreamPusher_caches_beyond_limit :
    (runMultiAdds trivClient nowNsC2 newMultiStreamPusher
        (((List.range 1001).map unaryKey).map mkEventForKey)).1
      = List.replicate 1001 none ∧
    (runMultiAdds trivClient nowNsC2 newMultiStreamPusher
        (((List.range 1001).map unaryKey).map mkEventForKey)).2.pusherMap.length
      = 1001 ∧
    1001 > pusherMapLimit := by
  have hnd : (((List.range 1001).map unaryKey).map StreamKey.Hash).Nodup := by
    rw [List.map_map]
    exact (List.nodup_range 1001).map unaryKey_hash_inj
  have h := runMultiAdds_fresh ((List.range 1001).map unaryKey) newMultiStreamPusher
    hnd (fun k _ => rfl)
  refine ⟨?_, ?_, by decide⟩
  · rw [h.1]
    simp
  · rw [h.2]
    simp [newMultiStreamPusher]

/-- C2 (amended): `multiStreamPusher.AddLogEntry` fetches or creates
the per-stream `Pusher` in its own plain, unbounded `pusherMap` keyed
by `StreamKey.Hash` — `BoundedPusherMap` is not involved — so for every
sequence of successful calls with pairwise-distinct stream key hashes
the number of cached pushers equals the number of calls, with no 1000
cap. -/
theorem multiStreamPusher_cache_grows_per_key (ks : List StreamKey)
    (hnd : (ks.map StreamKey.Hash).Nodup) :
    (runMultiAdds trivClient nowNsC2 newMultiStreamPusher (ks.map mkEventForKey)).1
      = List.replicate ks.length none ∧
    (runMultiAdds trivClient nowNsC2 newMultiStreamPusher
        (ks.map mkEventForKey)).2.pusherMap.length = ks.length := by
  have h := runMultiAdds_fresh ks newMultiStreamPusher hnd (fun k _ => rfl)
  exact ⟨h.1, by simpa [newMultiStreamPusher] using h.2⟩

/-- Witness for the amended C2 at two distinct keys. -/
theorem multiStreamPusher_cache_grows_per_key_witness :
    (([unaryKey 0, unaryKey 1].map StreamKey.Hash).Nodup) ∧
    (runMultiAdds trivClient nowNsC2 newMultiStreamPusher
        ([unaryKey 0, unaryKey 1].map mkEventForKey)).1 = List.replicate 2 none ∧
    (runMultiAdds trivClient nowNsC2 newMultiStreamPusher
        ([unaryKey 0, unaryKey 1].map mkEventForKey)).2.pusherMap.length = 2 := by
  have hnd : (([unaryKey 0, unaryKey 1].map StreamKey.Hash).Nodup) := by
    decide
  exact ⟨hnd, (multiStreamPusher_cache_grows_per_key [unaryKey 0, unaryKey 1] hnd).1,
    (multiStreamPusher_cache_grows_per_key [unaryKey 0, unaryKey 1] hnd).2⟩

end CWLogs
